import Mathlib

/-!
Shallow embedding of hcstatic-str (src/lib.rs): a global, permanent, packed,
hashconsed short-string store.

Memory model: each Rust `Chunk` owns a fixed buffer of `CHUNK_SIZE` bytes
(`Vec<u8>` pre-filled with zeros) and a write cursor `pos`.  A buffer is
modelled as a total function from index to byte value (all zeros initially).
Chunks are leaked and never freed in Rust; we track every chunk ever
allocated in a list, so a chunk is identified by a stable index into that
list.  A `Str` (the handle) is a raw pointer to the length byte of a record;
we model it as (chunk index, offset inside the chunk's buffer).
-/

def CHUNK_SIZE : Nat := 1 * 1024 * 1024

/-- A byte buffer with a write cursor: Rust struct Chunk \x7b data, pos \x7d. -/
structure Chunk where
  data : Nat → Nat
  pos : Nat

/-- Chunk::new: a zero-filled buffer of CHUNK_SIZE bytes, cursor 0. -/
def Chunk.new : Chunk := { data := fun _ => 0, pos := 0 }

/-- Store one byte at index i of a buffer. -/
def writeByte (d : Nat → Nat) (i v : Nat) : Nat → Nat :=
  fun j => if j = i then v else d j

/-- Store a list of bytes starting at index i (copy_from_slice). -/
def writeBytes (d : Nat → Nat) (i : Nat) : List Nat → (Nat → Nat)
  | [] => d
  | b :: bs => writeBytes (writeByte d i b) (i + 1) bs

/-- Read n bytes starting at index i (slice::from_raw_parts). -/
def readBytes (d : Nat → Nat) (i : Nat) : Nat → List Nat
  | 0 => []
  | n + 1 => d i :: readBytes d (i + 1) n

/-- The body of the loop in Chunk::insert, lines 38-41 of lib.rs: write the
length byte (truncated to u8 by the cast) at the cursor, copy the content
bytes right after it, advance the cursor by 1 + len, and return the offset
of the length byte just written. -/
def Chunk.writeAt (t : Chunk) (s : List Nat) : Chunk × Nat :=
  ({ data := writeBytes (writeByte t.data t.pos (s.length % 256)) (t.pos + 1) s,
     pos := t.pos + 1 + s.length }, t.pos)

/-- The handle type, Rust pub struct Str(*const u8): a pointer to the length
byte of a record, modelled as (index of the chunk, offset in its buffer).
Equality of this structure is address identity of the Rust pointer. -/
structure Str where
  chunk : Nat
  off : Nat
deriving DecidableEq

/-- Chunk::insert: `chunks` is the pool of every chunk ever allocated and
`root` the index of the active chunk (the &mut self receiver).  If the
remaining space CHUNK_SIZE - pos strictly exceeds the content length, write
the record at the cursor in place; otherwise allocate a brand-new chunk and
retry there (the Rust loop; a second failure would repeat identically on
every fresh chunk, i.e. loop forever, modelled as none). -/
def Chunk.insert (chunks : List Chunk) (root : Nat) (s : List Nat) :
    Option (List Chunk × Nat × Str) :=
  let t := chunks.getD root Chunk.new
  if CHUNK_SIZE - t.pos > s.length then
    let r := Chunk.writeAt t s
    some (chunks.set root r.1, root, ⟨root, r.2⟩)
  else
    let f := Chunk.new
    if CHUNK_SIZE - f.pos > s.length then
      let r := Chunk.writeAt f s
      some (chunks ++ [r.1], chunks.length, ⟨chunks.length, r.2⟩)
    else none

/-- The global registry, Rust struct Root: the canonical set of handles
(FxHashSet, modelled as a list) and the active chunk.  `chunks` is the pool
of all chunks ever allocated (Rust leaks them, so they all stay live). -/
structure Root where
  all : List Str
  root : Nat
  chunks : List Chunk

/-- Initial value of the ROOT static: empty set, one fresh chunk. -/
def Root.init : Root := { all := [], root := 0, chunks := [Chunk.new] }

/-- Str::get: read the length byte at the pointer, then that many following
bytes as the string content. -/
def Str.get (st : Root) (h : Str) : List Nat :=
  let d := (st.chunks.getD h.chunk Chunk.new).data
  readBytes d (h.off + 1) (d h.off)

/-- The only recoverable error of TryFrom: the bail with
"string is too long". -/
inductive StrError where
  | InputTooLong
deriving DecidableEq

/-- TryFrom<&str> for Str: reject content longer than u8::MAX = 255 bytes;
otherwise look the content up in the canonical set (hashconsing hit returns
the existing handle and leaves all state unchanged); on miss delegate to
Chunk::insert, adopt the returned chunk as the new root and add the new
handle to the set.  Strings are modelled by their byte lists (as_bytes).
The outer Option is none only if Chunk::insert would loop forever, which
the length guard rules out. -/
def Str.tryFrom (st : Root) (s : List Nat) : Option (Except StrError (Root × Str)) :=
  if s.length > 255 then some (.error .InputTooLong)
  else
    match st.all.find? (fun t => Str.get st t == s) with
    | some t => some (.ok (st, t))
    | none =>
      match Chunk.insert st.chunks st.root s with
      | some (cs, r, t) => some (.ok ({ all := t :: st.all, root := r, chunks := cs }, t))
      | none => none

/-- The state after one intern call (unchanged on error). -/
def Str.step (st : Root) (s : List Nat) : Root :=
  match Str.tryFrom st s with
  | some (.ok (st', _)) => st'
  | _ => st

/-- The state after a sequence of intern calls. -/
def Str.internList (st : Root) (ss : List (List Nat)) : Root :=
  ss.foldl Str.step st

/-- A handle points at a fully committed record: its chunk is allocated and
the whole record (length byte plus content) lies below the chunk's cursor. -/
def Str.committed (st : Root) (h : Str) : Prop :=
  h.chunk < st.chunks.length ∧
  h.off + 1 + (st.chunks.getD h.chunk Chunk.new).data h.off ≤
    (st.chunks.getD h.chunk Chunk.new).pos

instance (st : Root) (h : Str) : Decidable (Str.committed st h) := by
  unfold Str.committed; infer_instance

/-- Registry invariant: the active chunk is allocated, every chunk's cursor
is within the fixed capacity, every canonical handle is committed, and the
canonical set holds at most one handle per content. -/
def RootInv (st : Root) : Prop :=
  st.root < st.chunks.length ∧
  (∀ c ∈ st.chunks, c.pos ≤ CHUNK_SIZE) ∧
  (∀ h ∈ st.all, Str.committed st h) ∧
  (∀ h1 ∈ st.all, ∀ h2 ∈ st.all, Str.get st h1 = Str.get st h2 → h1 = h2)

/-- PartialEq for Str: equality of the dereferenced content. -/
def Str.eqb (st : Root) (a b : Str) : Bool := Str.get st a == Str.get st b

/-- Ord on byte slices as Rust implements it: first unequal pair decides,
else the shorter slice is smaller. -/
def bytesCmp : List Nat → List Nat → Ordering
  | [], [] => .eq
  | [], _ :: _ => .lt
  | _ :: _, [] => .gt
  | x :: xs, y :: ys =>
    if x < y then .lt else if x = y then bytesCmp xs ys else .gt

/-- Ord for Str: compare the dereferenced contents. -/
def Str.cmp (st : Root) (a b : Str) : Ordering :=
  bytesCmp (Str.get st a) (Str.get st b)

/-- Hash for Str, lines 107-111 of lib.rs: hashing a handle delegates to
hashing the dereferenced content, (&**self).hash(state).  The hasher is
abstracted as a function hf on the content bytes, so a handle's hash is hf
applied to what it dereferences to. -/
def Str.hashBy (hf : List Nat → Nat) (st : Root) (h : Str) : Nat :=
  hf (Str.get st h)

/-! ### Buffer read/write lemmas -/

theorem writeBytes_lt (l : List Nat) (d : Nat → Nat) (i j : Nat) (hj : j < i) :
    writeBytes d i l j = d j := by
  induction l generalizing d i with
  | nil => rfl
  | cons b bs ih =>
    rw [writeBytes, ih _ _ (Nat.lt_succ_of_lt hj), writeByte]
    simp [Nat.ne_of_lt hj]

theorem readBytes_writeBytes (l : List Nat) (d : Nat → Nat) (i : Nat) :
    readBytes (writeBytes d i l) i l.length = l := by
  induction l generalizing d i with
  | nil => rfl
  | cons b bs ih =>
    rw [List.length_cons, readBytes, writeBytes]
    refine congrArg₂ _ ?_ (ih _ _)
    rw [writeBytes_lt _ _ _ _ (Nat.lt_succ_self i), writeByte]
    simp

theorem readBytes_congr (d d' : Nat → Nat) (i n : Nat)
    (h : ∀ j, i ≤ j → j < i + n → d j = d' j) :
    readBytes d i n = readBytes d' i n := by
  induction n generalizing i with
  | zero => rfl
  | succ m ih =>
    rw [readBytes, readBytes, h i (Nat.le_refl i) (by omega)]
    exact congrArg _ (ih (i + 1) fun j h1 h2 => h j (by omega) (by omega))

/-! ### List.getD lemmas for the chunk pool -/

theorem getD_set_self (l : List Chunk) (i : Nat) (a d : Chunk) (h : i < l.length) :
    (l.set i a).getD i d = a := by
  induction l generalizing i with
  | nil => simp at h
  | cons x xs ih =>
    cases i with
    | zero => rfl
    | succ n => exact ih n (by simpa using h)

theorem getD_set_ne (l : List Chunk) (i j : Nat) (a d : Chunk) (h : i ≠ j) :
    (l.set i a).getD j d = l.getD j d := by
  induction l generalizing i j with
  | nil => rfl
  | cons x xs ih =>
    cases i with
    | zero => cases j with
      | zero => exact absurd rfl h
      | succ m => rfl
    | succ n => cases j with
      | zero => rfl
      | succ m => exact ih n m fun hnm => h (by rw [hnm])

theorem getD_append_lt (l l' : List Chunk) (i : Nat) (d : Chunk) (h : i < l.length) :
    (l ++ l').getD i d = l.getD i d := by
  induction l generalizing i with
  | nil => simp at h
  | cons x xs ih =>
    cases i with
    | zero => rfl
    | succ n => exact ih n (by simpa using h)

theorem getD_append_len (l : List Chunk) (a d : Chunk) :
    (l ++ [a]).getD l.length d = a := by
  induction l with
  | nil => rfl
  | cons x xs ih => simp [ih]

/-! ### Chunk.writeAt lemmas -/

theorem writeAt_pos (t : Chunk) (s : List Nat) :
    (Chunk.writeAt t s).1.pos = t.pos + 1 + s.length := rfl

theorem writeAt_off (t : Chunk) (s : List Nat) : (Chunk.writeAt t s).2 = t.pos := rfl

theorem writeAt_len_byte (t : Chunk) (s : List Nat) :
    (Chunk.writeAt t s).1.data t.pos = s.length % 256 := by
  show writeBytes (writeByte t.data t.pos (s.length % 256)) (t.pos + 1) s t.pos
      = s.length % 256
  rw [writeBytes_lt _ _ _ _ (Nat.lt_succ_self _), writeByte]
  simp

theorem writeAt_content (t : Chunk) (s : List Nat) :
    readBytes (Chunk.writeAt t s).1.data (t.pos + 1) s.length = s :=
  readBytes_writeBytes s _ _

theorem writeAt_frame (t : Chunk) (s : List Nat) (j : Nat) (hj : j < t.pos) :
    (Chunk.writeAt t s).1.data j = t.data j := by
  show writeBytes (writeByte t.data t.pos (s.length % 256)) (t.pos + 1) s j = t.data j
  rw [writeBytes_lt _ _ _ _ (by omega), writeByte]
  simp [Nat.ne_of_lt hj]

/-! ### Branch lemmas for Chunk.insert and Str.tryFrom -/

theorem CHUNK_SIZE_eq : CHUNK_SIZE = 1048576 := rfl

theorem insert_space (chunks : List Chunk) (root : Nat) (s : List Nat)
    (hsp : CHUNK_SIZE - (chunks.getD root Chunk.new).pos > s.length) :
    Chunk.insert chunks root s =
      some (chunks.set root (Chunk.writeAt (chunks.getD root Chunk.new) s).1, root,
        ⟨root, (chunks.getD root Chunk.new).pos⟩) := by
  simp only [Chunk.insert]
  rw [if_pos hsp]
  rfl

theorem insert_full (chunks : List Chunk) (root : Nat) (s : List Nat)
    (hsp : ¬ CHUNK_SIZE - (chunks.getD root Chunk.new).pos > s.length)
    (hlen : s.length < CHUNK_SIZE) :
    Chunk.insert chunks root s =
      some (chunks ++ [(Chunk.writeAt Chunk.new s).1], chunks.length,
        ⟨chunks.length, 0⟩) := by
  simp only [Chunk.insert]
  rw [if_neg hsp, if_pos (by simpa [Chunk.new] using hlen)]
  rfl

theorem tryFrom_hit (st : Root) (s : List Nat) (t : Str) (hlen : ¬ s.length > 255)
    (hfind : st.all.find? (fun t => Str.get st t == s) = some t) :
    Str.tryFrom st s = some (.ok (st, t)) := by
  rw [Str.tryFrom, if_neg hlen, hfind]

theorem tryFrom_miss (st : Root) (s : List Nat) (cs : List Chunk) (r : Nat) (t : Str)
    (hlen : ¬ s.length > 255)
    (hfind : st.all.find? (fun t => Str.get st t == s) = none)
    (hins : Chunk.insert st.chunks st.root s = some (cs, r, t)) :
    Str.tryFrom st s = some (.ok ({ all := t :: st.all, root := r, chunks := cs }, t)) := by
  rw [Str.tryFrom, if_neg hlen, hfind, hins]

theorem tryFrom_long (st : Root) (s : List Nat) (hlen : s.length > 255) :
    Str.tryFrom st s = some (.error .InputTooLong) := by
  rw [Str.tryFrom, if_pos hlen]

/-! ### Frame lemmas: committed records are never touched again -/

theorem get_congr (st st' : Root) (h : Str)
    (hch : st'.chunks.getD h.chunk Chunk.new = st.chunks.getD h.chunk Chunk.new) :
    Str.get st' h = Str.get st h := by
  rw [Str.get, Str.get, hch]

theorem record_read_frame (d d' : Nat → Nat) (off p : Nat)
    (hc : off + 1 + d off ≤ p) (hf : ∀ j, j < p → d' j = d j) :
    d' off = d off ∧ readBytes d' (off + 1) (d' off) = readBytes d (off + 1) (d off) := by
  have h0 : d' off = d off := hf off (by omega)
  refine ⟨h0, ?_⟩
  rw [h0]
  exact readBytes_congr _ _ _ _ fun j h1 h2 => hf j (by omega)

theorem step_ok_frame (st : Root) (s : List Nat) (st' : Root) (h' : Str)
    (hrun : Str.tryFrom st s = some (.ok (st', h'))) (h : Str)
    (hc : Str.committed st h) :
    Str.committed st' h ∧ Str.get st' h = Str.get st h := by
  by_cases hlen : s.length > 255
  · rw [tryFrom_long st s hlen] at hrun
    simp at hrun
  · cases hfind : st.all.find? (fun t => Str.get st t == s) with
    | some t =>
      rw [tryFrom_hit st s t hlen hfind] at hrun
      simp only [Option.some.injEq, Except.ok.injEq, Prod.mk.injEq] at hrun
      obtain ⟨rfl, rfl⟩ := hrun
      exact ⟨hc, rfl⟩
    | none =>
      obtain ⟨hcl, hcr⟩ := hc
      by_cases hsp : CHUNK_SIZE - (st.chunks.getD st.root Chunk.new).pos > s.length
      · rw [tryFrom_miss st s _ _ _ hlen hfind (insert_space st.chunks st.root s hsp)]
          at hrun
        simp only [Option.some.injEq, Except.ok.injEq, Prod.mk.injEq] at hrun
        obtain ⟨rfl, rfl⟩ := hrun
        by_cases hcr' : h.chunk = st.root
        · rw [← hcr']
          have hset : ((st.chunks.set h.chunk
              (Chunk.writeAt (st.chunks.getD h.chunk Chunk.new) s).1).getD h.chunk
                Chunk.new) = (Chunk.writeAt (st.chunks.getD h.chunk Chunk.new) s).1 :=
            getD_set_self _ _ _ _ hcl
          have hfr := record_read_frame (st.chunks.getD h.chunk Chunk.new).data
            (Chunk.writeAt (st.chunks.getD h.chunk Chunk.new) s).1.data h.off
            (st.chunks.getD h.chunk Chunk.new).pos hcr
            (fun j hj => writeAt_frame _ s j hj)
          constructor
          · refine ⟨by simpa using hcl, ?_⟩
            simp only [hset, writeAt_pos, hfr.1]
            omega
          · rw [Str.get, Str.get]
            simp only [hset]
            exact hfr.2
        · constructor
          · exact ⟨by simpa using hcl, by rw [getD_set_ne _ _ _ _ _ fun e => hcr' e.symm]; exact hcr⟩
          · exact get_congr _ _ _ (getD_set_ne _ _ _ _ _ fun e => hcr' e.symm)
      · have hlen2 : s.length < CHUNK_SIZE := by rw [CHUNK_SIZE_eq]; omega
        rw [tryFrom_miss st s _ _ _ hlen hfind (insert_full st.chunks st.root s hsp hlen2)]
          at hrun
        simp only [Option.some.injEq, Except.ok.injEq, Prod.mk.injEq] at hrun
        obtain ⟨rfl, rfl⟩ := hrun
        constructor
        · exact ⟨by simp; omega, by rw [getD_append_lt _ _ _ _ hcl]; exact hcr⟩
        · exact get_congr _ _ _ (getD_append_lt _ _ _ _ hcl)

/-! ### Reading back a freshly written record -/

theorem get_writeAt (st : Root) (h : Str) (t0 : Chunk) (s : List Nat)
    (hch : st.chunks.getD h.chunk Chunk.new = (Chunk.writeAt t0 s).1)
    (hoff : h.off = t0.pos) (hlen : s.length ≤ 255) :
    Str.get st h = s := by
  rw [Str.get]
  simp only [hch, hoff]
  rw [writeAt_len_byte, Nat.mod_eq_of_lt (by omega)]
  exact writeAt_content t0 s

theorem committed_writeAt (st : Root) (h : Str) (t0 : Chunk) (s : List Nat)
    (hch : st.chunks.getD h.chunk Chunk.new = (Chunk.writeAt t0 s).1)
    (hoff : h.off = t0.pos) (hlen : s.length ≤ 255)
    (hcl : h.chunk < st.chunks.length) :
    Str.committed st h := by
  refine ⟨hcl, ?_⟩
  rw [hch, hoff, writeAt_len_byte, Nat.mod_eq_of_lt (by omega), writeAt_pos]

/-! ### Preservation of the registry invariant by one intern call -/

theorem find?_none_ne (st : Root) (s : List Nat)
    (hfind : st.all.find? (fun t => Str.get st t == s) = none) :
    ∀ h0 ∈ st.all, Str.get st h0 ≠ s := by
  intro h0 hh0 he
  have hne := List.find?_eq_none.mp hfind h0 hh0
  simp [he] at hne

theorem inv_step (st : Root) (s : List Nat) (st' : Root) (h : Str)
    (hInv : RootInv st) (hrun : Str.tryFrom st s = some (.ok (st', h))) :
    RootInv st' ∧ h ∈ st'.all ∧ Str.get st' h = s ∧ ∀ h0 ∈ st.all, h0 ∈ st'.all := by
  obtain ⟨hroot, hcap, hcom, hcanon⟩ := hInv
  have hframe : ∀ h0, Str.committed st h0 →
      Str.committed st' h0 ∧ Str.get st' h0 = Str.get st h0 :=
    fun h0 hc0 => step_ok_frame st s st' h hrun h0 hc0
  by_cases hlen : s.length > 255
  · rw [tryFrom_long st s hlen] at hrun
    simp at hrun
  · cases hfind : st.all.find? (fun t => Str.get st t == s) with
    | some t =>
      rw [tryFrom_hit st s t hlen hfind] at hrun
      simp only [Option.some.injEq, Except.ok.injEq, Prod.mk.injEq] at hrun
      obtain ⟨rfl, rfl⟩ := hrun
      have hp : Str.get st t = s := by simpa using List.find?_some hfind
      exact ⟨⟨hroot, hcap, hcom, hcanon⟩, List.mem_of_find?_eq_some hfind, hp,
        fun h0 hh0 => hh0⟩
    | none =>
      have hnf := find?_none_ne st s hfind
      have hlen' : s.length ≤ 255 := by omega
      by_cases hsp : CHUNK_SIZE - (st.chunks.getD st.root Chunk.new).pos > s.length
      · rw [tryFrom_miss st s _ _ _ hlen hfind (insert_space st.chunks st.root s hsp)]
          at hrun
        simp only [Option.some.injEq, Except.ok.injEq, Prod.mk.injEq] at hrun
        obtain ⟨rfl, rfl⟩ := hrun
        have hch : ((st.chunks.set st.root
            (Chunk.writeAt (st.chunks.getD st.root Chunk.new) s).1).getD st.root
              Chunk.new) = (Chunk.writeAt (st.chunks.getD st.root Chunk.new) s).1 :=
          getD_set_self _ _ _ _ hroot
        have hgetnew : Str.get
            { all := ⟨st.root, (st.chunks.getD st.root Chunk.new).pos⟩ :: st.all,
              root := st.root,
              chunks := st.chunks.set st.root
                (Chunk.writeAt (st.chunks.getD st.root Chunk.new) s).1 }
            ⟨st.root, (st.chunks.getD st.root Chunk.new).pos⟩ = s :=
          get_writeAt _ _ _ s hch rfl hlen'
        refine ⟨⟨?_, ?_, ?_, ?_⟩, List.mem_cons_self _ _, hgetnew,
          fun h0 hh0 => List.mem_cons_of_mem _ hh0⟩
        · simpa using hroot
        · intro c hcmem
          rcases List.mem_or_eq_of_mem_set hcmem with hin | rfl
          · exact hcap _ hin
          · rw [writeAt_pos]
            omega
        · intro h0 hh0
          rcases List.mem_cons.mp hh0 with rfl | hh0
          · exact committed_writeAt _ _ _ s hch rfl hlen' (by simpa using hroot)
          · exact (hframe h0 (hcom h0 hh0)).1
        · intro h1 hm1 h2 hm2 heq
          rcases List.mem_cons.mp hm1 with rfl | hm1 <;>
            rcases List.mem_cons.mp hm2 with rfl | hm2
          · rfl
          · rw [hgetnew, (hframe h2 (hcom h2 hm2)).2] at heq
            exact absurd heq.symm (hnf h2 hm2)
          · rw [hgetnew, (hframe h1 (hcom h1 hm1)).2] at heq
            exact absurd heq (hnf h1 hm1)
          · exact hcanon h1 hm1 h2 hm2
              (by rw [(hframe h1 (hcom h1 hm1)).2, (hframe h2 (hcom h2 hm2)).2] at heq
                  exact heq)
      · have hlen2 : s.length < CHUNK_SIZE := by rw [CHUNK_SIZE_eq]; omega
        rw [tryFrom_miss st s _ _ _ hlen hfind
          (insert_full st.chunks st.root s hsp hlen2)] at hrun
        simp only [Option.some.injEq, Except.ok.injEq, Prod.mk.injEq] at hrun
        obtain ⟨rfl, rfl⟩ := hrun
        have hch : ((st.chunks ++ [(Chunk.writeAt Chunk.new s).1]).getD
            st.chunks.length Chunk.new) = (Chunk.writeAt Chunk.new s).1 :=
          getD_append_len _ _ _
        have hgetnew : Str.get
            { all := ⟨st.chunks.length, 0⟩ :: st.all,
              root := st.chunks.length,
              chunks := st.chunks ++ [(Chunk.writeAt Chunk.new s).1] }
            ⟨st.chunks.length, 0⟩ = s :=
          get_writeAt _ _ _ s hch rfl hlen'
        refine ⟨⟨?_, ?_, ?_, ?_⟩, List.mem_cons_self _ _, hgetnew,
          fun h0 hh0 => List.mem_cons_of_mem _ hh0⟩
        · simp
        · intro c hcmem
          rcases List.mem_append.mp hcmem with hin | hin
          · exact hcap _ hin
          · rw [List.mem_singleton.mp hin, writeAt_pos]
            show Chunk.new.pos + 1 + s.length ≤ CHUNK_SIZE
            rw [CHUNK_SIZE_eq]
            simp [Chunk.new]
            omega
        · intro h0 hh0
          rcases List.mem_cons.mp hh0 with rfl | hh0
          · exact committed_writeAt _ _ _ s hch rfl hlen' (by simp)
          · exact (hframe h0 (hcom h0 hh0)).1
        · intro h1 hm1 h2 hm2 heq
          rcases List.mem_cons.mp hm1 with rfl | hm1 <;>
            rcases List.mem_cons.mp hm2 with rfl | hm2
          · rfl
          · rw [hgetnew, (hframe h2 (hcom h2 hm2)).2] at heq
            exact absurd heq.symm (hnf h2 hm2)
          · rw [hgetnew, (hframe h1 (hcom h1 hm1)).2] at heq
            exact absurd heq (hnf h1 hm1)
          · exact hcanon h1 hm1 h2 hm2
              (by rw [(hframe h1 (hcom h1 hm1)).2, (hframe h2 (hcom h2 hm2)).2] at heq
                  exact heq)

/-! ### The invariant holds initially -/

theorem invInit : RootInv Root.init := by
  refine ⟨by simp [Root.init], ?_, ?_, ?_⟩
  · intro c hc
    rw [Root.init] at hc
    rw [List.mem_singleton.mp hc]
    rw [CHUNK_SIZE_eq]
    simp [Chunk.new]
  · intro h hh
    simp [Root.init] at hh
  · intro h1 h1m
    simp [Root.init] at h1m

theorem getD_mem (l : List Chunk) (i : Nat) (d : Chunk) (h : i < l.length) :
    l.getD i d ∈ l := by
  induction l generalizing i with
  | nil => simp at h
  | cons x xs ih =>
    cases i with
    | zero => exact List.mem_cons_self _ _
    | succ n => exact List.mem_cons_of_mem _ (ih n (by simpa using h))

/-! ### bytesCmp is the lexicographic order on contents -/

theorem bytesCmp_eq_iff (x y : List Nat) : bytesCmp x y = Ordering.eq ↔ x = y := by
  induction x generalizing y with
  | nil => cases y <;> simp [bytesCmp]
  | cons a as ih =>
    cases y with
    | nil => simp [bytesCmp]
    | cons b bs =>
      rw [bytesCmp]
      split_ifs with h1 h2
      · simp only [List.cons.injEq]
        constructor
        · intro hc
          exact absurd hc (by decide)
        · rintro ⟨rfl, rfl⟩
          omega
      · subst h2
        simp [ih]
      · simp only [List.cons.injEq]
        constructor
        · intro hc
          exact absurd hc (by decide)
        · rintro ⟨rfl, rfl⟩
          omega

theorem bytesCmp_lt_iff (x y : List Nat) :
    bytesCmp x y = Ordering.lt ↔ List.Lex (· < ·) x y := by
  induction x generalizing y with
  | nil =>
    cases y with
    | nil =>
      constructor
      · intro hc
        exact absurd hc (by decide)
      · intro hc
        cases hc
    | cons b bs =>
      constructor
      · intro _
        exact List.Lex.nil
      · intro _
        rfl
  | cons a as ih =>
    cases y with
    | nil =>
      constructor
      · intro hc
        simp [bytesCmp] at hc
      · intro hc
        cases hc
    | cons b bs =>
      rw [bytesCmp]
      split_ifs with h1 h2
      · constructor
        · intro _
          exact List.Lex.rel h1
        · intro _
          rfl
      · subst h2
        rw [ih]
        constructor
        · exact fun hc => List.Lex.cons hc
        · intro hc
          cases hc with
          | cons hc => exact hc
          | rel hc => omega
      · constructor
        · intro hc
          exact absurd hc (by decide)
        · intro hc
          cases hc with
          | cons hc => exact absurd rfl h2
          | rel hc => omega

theorem bytesCmp_gt_iff (x y : List Nat) :
    bytesCmp x y = Ordering.gt ↔ List.Lex (· < ·) y x := by
  induction x generalizing y with
  | nil =>
    cases y with
    | nil =>
      constructor
      · intro hc
        exact absurd hc (by decide)
      · intro hc
        cases hc
    | cons b bs =>
      constructor
      · intro hc
        simp [bytesCmp] at hc
      · intro hc
        cases hc
  | cons a as ih =>
    cases y with
    | nil =>
      constructor
      · intro _
        exact List.Lex.nil
      · intro _
        rfl
    | cons b bs =>
      rw [bytesCmp]
      split_ifs with h1 h2
      · constructor
        · intro hc
          exact absurd hc (by decide)
        · intro hc
          cases hc with
          | cons hc => omega
          | rel hc => omega
      · subst h2
        rw [ih]
        constructor
        · exact fun hc => List.Lex.cons hc
        · intro hc
          cases hc with
          | cons hc => exact hc
          | rel hc => omega
      · constructor
        · intro _
          exact List.Lex.rel (by omega)
        · intro _
          rfl

/-! ### Interning a short string always produces a handle -/

theorem tryFrom_isOk (st : Root) (s : List Nat) (hlen : s.length ≤ 255) :
    ∃ st' h, Str.tryFrom st s = some (.ok (st', h)) := by
  have hlen' : ¬ s.length > 255 := by omega
  cases hfind : st.all.find? (fun t => Str.get st t == s) with
  | some t => exact ⟨st, t, tryFrom_hit st s t hlen' hfind⟩
  | none =>
    by_cases hsp : CHUNK_SIZE - (st.chunks.getD st.root Chunk.new).pos > s.length
    · exact ⟨_, _, tryFrom_miss st s _ _ _ hlen' hfind (insert_space st.chunks st.root s hsp)⟩
    · have hlen2 : s.length < CHUNK_SIZE := by rw [CHUNK_SIZE_eq]; omega
      exact ⟨_, _, tryFrom_miss st s _ _ _ hlen' hfind
        (insert_full st.chunks st.root s hsp hlen2)⟩

theorem step_frame (st : Root) (s : List Nat) (h : Str) (hc : Str.committed st h) :
    Str.committed (Str.step st s) h ∧ Str.get (Str.step st s) h = Str.get st h := by
  cases hrun : Str.tryFrom st s with
  | none =>
    have hst : Str.step st s = st := by rw [Str.step, hrun]
    rw [hst]
    exact ⟨hc, rfl⟩
  | some r =>
    cases r with
    | error e =>
      have hst : Str.step st s = st := by rw [Str.step, hrun]
      rw [hst]
      exact ⟨hc, rfl⟩
    | ok p =>
      obtain ⟨st', h'⟩ := p
      have hst : Str.step st s = st' := by rw [Str.step, hrun]
      rw [hst]
      exact step_ok_frame st s st' h' hrun h hc

/-! ### The claims -/

/-- C1: for every string s of byte length at most 255, intern(s)
(Str::try_from) succeeds and dereferencing the returned handle yields
content byte-for-byte identical to s. -/
theorem C1_intern_roundtrip (st : Root) (s : List Nat)
    (hroot : st.root < st.chunks.length) (hlen : s.length ≤ 255) :
    ∃ st' h, Str.tryFrom st s = some (.ok (st', h)) ∧ Str.get st' h = s := by
  have hlen' : ¬ s.length > 255 := by omega
  cases hfind : st.all.find? (fun t => Str.get st t == s) with
  | some t =>
    exact ⟨st, t, tryFrom_hit st s t hlen' hfind,
      by simpa using List.find?_some hfind⟩
  | none =>
    by_cases hsp : CHUNK_SIZE - (st.chunks.getD st.root Chunk.new).pos > s.length
    · refine ⟨_, _, tryFrom_miss st s _ _ _ hlen' hfind
        (insert_space st.chunks st.root s hsp), ?_⟩
      exact get_writeAt _ _ _ s (getD_set_self _ _ _ _ hroot) rfl hlen
    · have hlen2 : s.length < CHUNK_SIZE := by rw [CHUNK_SIZE_eq]; omega
      refine ⟨_, _, tryFrom_miss st s _ _ _ hlen' hfind
        (insert_full st.chunks st.root s hsp hlen2), ?_⟩
      exact get_writeAt _ _ _ s (getD_append_len _ _ _) rfl hlen

/-- C2: canonicalization invariant. After intern(s) returns handle h1 from a
state satisfying the registry invariant, exactly one handle in the canonical
set dereferences to s (h1 itself), and interning equal content again returns
the very same handle (the same address, i.e. the same Str value) with the
state unchanged. -/
theorem C2_canonicalization (st : Root) (s : List Nat) (st1 : Root) (h1 : Str)
    (hInv : RootInv st) (hrun : Str.tryFrom st s = some (.ok (st1, h1))) :
    (h1 ∈ st1.all ∧ Str.get st1 h1 = s) ∧
    (∀ h' ∈ st1.all, Str.get st1 h' = s → h' = h1) ∧
    Str.tryFrom st1 s = some (.ok (st1, h1)) := by
  obtain ⟨hInv1, hmem, hget, _⟩ := inv_step st s st1 h1 hInv hrun
  obtain ⟨_, _, _, hcanon⟩ := hInv1
  have huniq : ∀ h' ∈ st1.all, Str.get st1 h' = s → h' = h1 := fun h' hm hg =>
    hcanon h' hm h1 hmem (hg.trans hget.symm)
  have hlen : ¬ s.length > 255 := by
    intro hgt
    rw [tryFrom_long st s hgt] at hrun
    simp at hrun
  refine ⟨⟨hmem, hget⟩, huniq, ?_⟩
  cases hfind : st1.all.find? (fun t => Str.get st1 t == s) with
  | none => exact absurd (List.find?_eq_none.mp hfind h1 hmem) (by simp [hget])
  | some t =>
    have ht : t = h1 := huniq t (List.mem_of_find?_eq_some hfind)
      (by simpa using List.find?_some hfind)
    rw [← ht]
    exact tryFrom_hit st1 s t hlen hfind

/-- C3: intern(s) fails with InputTooLong exactly when the byte length of s
exceeds 255: every string of length at most 255 (so in particular one of
exactly 255 bytes) succeeds, every longer one (in particular 256 bytes)
yields the InputTooLong error, the operation always returns (never hangs),
and there is no other error condition. -/
theorem C3_error_iff (st : Root) (s : List Nat) :
    (Str.tryFrom st s).isSome = true ∧
    (s.length ≤ 255 → ∃ st' h, Str.tryFrom st s = some (.ok (st', h))) ∧
    (s.length > 255 → Str.tryFrom st s = some (.error .InputTooLong)) ∧
    (∀ st' h, Str.tryFrom st s = some (.ok (st', h)) → s.length ≤ 255) := by
  refine ⟨?_, fun hle => tryFrom_isOk st s hle, fun hgt => tryFrom_long st s hgt, ?_⟩
  · by_cases hle : s.length ≤ 255
    · obtain ⟨st', h, hok⟩ := tryFrom_isOk st s hle
      rw [hok]
      rfl
    · rw [tryFrom_long st s (by omega)]
      rfl
  · intro st' h hok
    by_contra hgt
    rw [tryFrom_long st s (by omega)] at hok
    simp at hok

/-- C4: handle equality, ordering and hashing are defined by the
dereferenced content, not the address: two handles are equal iff their
contents are equal, comparison is the lexicographic order on content bytes,
hashing a handle is exactly hashing its content (so content-equal handles
hash identically under every hasher), and handles with distinct content
always compare unequal. -/
theorem C4_content_semantics (st : Root) (a b : Str) :
    (Str.eqb st a b = true ↔ Str.get st a = Str.get st b) ∧
    (Str.cmp st a b = Ordering.eq ↔ Str.get st a = Str.get st b) ∧
    (Str.cmp st a b = Ordering.lt ↔ List.Lex (· < ·) (Str.get st a) (Str.get st b)) ∧
    (Str.cmp st a b = Ordering.gt ↔ List.Lex (· < ·) (Str.get st b) (Str.get st a)) ∧
    (∀ hf : List Nat → Nat, Str.hashBy hf st a = hf (Str.get st a)) ∧
    (∀ hf : List Nat → Nat, Str.get st a = Str.get st b →
      Str.hashBy hf st a = Str.hashBy hf st b) ∧
    (Str.get st a ≠ Str.get st b → Str.eqb st a b = false) := by
  refine ⟨by simp [Str.eqb], bytesCmp_eq_iff _ _, bytesCmp_lt_iff _ _,
    bytesCmp_gt_iff _ _, fun hf => rfl, ?_, ?_⟩
  · intro hf he
    rw [Str.hashBy, Str.hashBy, he]
  · intro hne
    simp [Str.eqb, hne]

/-- C5: permanence (frame property). Once a handle points at a committed
record, no sequence of subsequent intern calls (including any number that
rotate the active region) ever changes the bytes that handle dereferences
to, and the record stays committed. -/
theorem C5_permanence (st : Root) (h : Str) (ss : List (List Nat))
    (hc : Str.committed st h) :
    Str.get (Str.internList st ss) h = Str.get st h ∧
    Str.committed (Str.internList st ss) h := by
  induction ss generalizing st with
  | nil => exact ⟨rfl, hc⟩
  | cons s rest ih =>
    have h1 := step_frame st s h hc
    have h2 := ih (Str.step st s) h1.1
    exact ⟨by
      rw [show Str.internList st (s :: rest) = Str.internList (Str.step st s) rest
        from rfl, h2.1, h1.2], h2.2⟩

/-- C6: region insert postcondition. When the active region's free space
strictly exceeds the content length, insert writes the length byte followed
by exactly the content bytes at the cursor, advances the cursor by
length + 1, returns a handle at the old cursor, leaves all bytes below the
old cursor unchanged, keeps the cursor within the capacity, and the new
record lies fully within [0, new cursor). -/
theorem C6_insert_postcondition (chunks : List Chunk) (root : Nat) (s : List Nat)
    (t0 : Chunk) (ht0 : chunks.getD root Chunk.new = t0) (hlen : s.length ≤ 255)
    (hsp : CHUNK_SIZE - t0.pos > s.length) :
    Chunk.insert chunks root s =
      some (chunks.set root (Chunk.writeAt t0 s).1, root, ⟨root, t0.pos⟩) ∧
    (Chunk.writeAt t0 s).1.pos = t0.pos + 1 + s.length ∧
    (Chunk.writeAt t0 s).1.data t0.pos = s.length ∧
    readBytes (Chunk.writeAt t0 s).1.data (t0.pos + 1) s.length = s ∧
    (∀ j, j < t0.pos → (Chunk.writeAt t0 s).1.data j = t0.data j) ∧
    (Chunk.writeAt t0 s).1.pos ≤ CHUNK_SIZE ∧
    t0.pos + 1 + s.length ≤ (Chunk.writeAt t0 s).1.pos := by
  subst ht0
  refine ⟨insert_space chunks root s hsp, rfl, ?_, writeAt_content _ s,
    fun j hj => writeAt_frame _ s j hj, ?_, ?_⟩
  · rw [writeAt_len_byte, Nat.mod_eq_of_lt (by omega)]
  · rw [writeAt_pos]
    omega
  · rw [writeAt_pos]

/-- C7: region rotation. When the active region's remaining space is
insufficient, insert allocates a brand-new region (fresh cursor 0), writes
the same record there at offset 0 and returns a handle into the new region;
every previously allocated region (in particular the exhausted one and its
unused tail) is left untouched, and on a registry miss the registry adopts
the new region as the current active one. -/
theorem C7_rotation (st : Root) (s : List Nat) (hlen : s.length ≤ 255)
    (hfull : ¬ CHUNK_SIZE - (st.chunks.getD st.root Chunk.new).pos > s.length)
    (hmiss : st.all.find? (fun t => Str.get st t == s) = none) :
    Chunk.insert st.chunks st.root s =
      some (st.chunks ++ [(Chunk.writeAt Chunk.new s).1], st.chunks.length,
        ⟨st.chunks.length, 0⟩) ∧
    (Chunk.writeAt Chunk.new s).1.pos = 1 + s.length ∧
    (Chunk.writeAt Chunk.new s).1.data 0 = s.length ∧
    readBytes (Chunk.writeAt Chunk.new s).1.data 1 s.length = s ∧
    (∀ i, i < st.chunks.length →
      (st.chunks ++ [(Chunk.writeAt Chunk.new s).1]).getD i Chunk.new
        = st.chunks.getD i Chunk.new) ∧
    Str.tryFrom st s = some (.ok
      ({ all := ⟨st.chunks.length, 0⟩ :: st.all, root := st.chunks.length,
         chunks := st.chunks ++ [(Chunk.writeAt Chunk.new s).1] },
       ⟨st.chunks.length, 0⟩)) ∧
    (Str.step st s).root = st.chunks.length := by
  have hlen2 : s.length < CHUNK_SIZE := by rw [CHUNK_SIZE_eq]; omega
  have hins := insert_full st.chunks st.root s hfull hlen2
  have hrun := tryFrom_miss st s _ _ _ (by omega) hmiss hins
  refine ⟨hins, rfl, ?_, writeAt_content _ s,
    fun i hi => getD_append_lt _ _ _ _ hi, hrun, ?_⟩
  · show (Chunk.writeAt Chunk.new s).1.data Chunk.new.pos = s.length
    rw [writeAt_len_byte, Nat.mod_eq_of_lt (by omega)]
  · rw [Str.step, hrun]

/-- C8: error atomicity. For every string longer than 255 bytes, intern
fails with InputTooLong and the whole registry state (regions, cursors and
canonical set) is left unchanged. -/
theorem C8_error_atomicity (st : Root) (s : List Nat) (hlen : s.length > 255) :
    Str.tryFrom st s = some (.error .InputTooLong) ∧ Str.step st s = st := by
  refine ⟨tryFrom_long st s hlen, ?_⟩
  rw [Str.step, tryFrom_long st s hlen]

/-- C9: dereference safety. Every handle returned by intern from an
invariant state points at a fully committed record, and every byte index
the dereference reads (the length byte and the following length content
bytes) lies below the chunk's cursor and hence strictly inside the region's
fixed-capacity buffer. -/
theorem C9_deref_safety (st : Root) (s : List Nat) (st' : Root) (h : Str)
    (hInv : RootInv st) (hrun : Str.tryFrom st s = some (.ok (st', h))) :
    h.chunk < st'.chunks.length ∧
    h.off + 1 + (st'.chunks.getD h.chunk Chunk.new).data h.off
      ≤ (st'.chunks.getD h.chunk Chunk.new).pos ∧
    (∀ i, h.off ≤ i →
      i < h.off + 1 + (st'.chunks.getD h.chunk Chunk.new).data h.off →
      i < (st'.chunks.getD h.chunk Chunk.new).pos ∧ i < CHUNK_SIZE) := by
  obtain ⟨hInv1, hmem, _, _⟩ := inv_step st s st' h hInv hrun
  obtain ⟨_, hcap, hcom, _⟩ := hInv1
  obtain ⟨hcl, hcr⟩ := hcom h hmem
  have hposcap : (st'.chunks.getD h.chunk Chunk.new).pos ≤ CHUNK_SIZE :=
    hcap _ (getD_mem _ _ _ hcl)
  exact ⟨hcl, hcr, fun i h1 h2 => ⟨by omega, by omega⟩⟩

/-- C10: interning the empty string on a miss succeeds, consumes exactly one
byte of region storage (the cursor advances by exactly 1 and the byte
written at the old cursor is the length byte 0), and the returned handle
dereferences to the empty string. -/
theorem C10_empty_string (st : Root)
    (hroot : st.root < st.chunks.length)
    (hmiss : st.all.find? (fun t => Str.get st t == ([] : List Nat)) = none)
    (hspace : (st.chunks.getD st.root Chunk.new).pos < CHUNK_SIZE) :
    ∃ st' h, Str.tryFrom st [] = some (.ok (st', h)) ∧
      Str.get st' h = [] ∧
      st'.root = st.root ∧
      (st'.chunks.getD st'.root Chunk.new).pos
        = (st.chunks.getD st.root Chunk.new).pos + 1 ∧
      (st'.chunks.getD st'.root Chunk.new).data
        (st.chunks.getD st.root Chunk.new).pos = 0 := by
  have hsp : CHUNK_SIZE - (st.chunks.getD st.root Chunk.new).pos
      > ([] : List Nat).length := by
    simp only [List.length_nil]
    omega
  refine ⟨_, _, tryFrom_miss st [] _ _ _ (by decide) hmiss
    (insert_space st.chunks st.root [] hsp), ?_, rfl, ?_, ?_⟩
  · exact get_writeAt _ _ _ [] (getD_set_self _ _ _ _ hroot) rfl (by decide)
  · show ((st.chunks.set st.root _).getD st.root Chunk.new).pos = _
    rw [getD_set_self _ _ _ _ hroot, writeAt_pos]
    simp
  · show ((st.chunks.set st.root _).getD st.root Chunk.new).data _ = 0
    rw [getD_set_self _ _ _ _ hroot, writeAt_len_byte]
    simp

/-! ### Concrete states used by the witnesses -/

/-- Result of one intern call, with a dummy fallback that never fires for
the concrete inputs below. -/
def internD (st : Root) (s : List Nat) : Root × Str :=
  match Str.tryFrom st s with
  | some (.ok r) => r
  | _ => (st, ⟨0, 0⟩)

def demoS : List Nat := [104, 105]

def demoSt1 : Root := (internD Root.init demoS).1

def demoH1 : Str := (internD Root.init demoS).2

def demoSt2 : Root := (internD demoSt1 [97]).1

def demoH2 : Str := (internD demoSt1 [97]).2

/-- A registry whose single active chunk is completely full, to exercise
rotation. -/
def fullChunk : Chunk := { data := fun _ => 0, pos := CHUNK_SIZE }

def fullSt : Root := { all := [], root := 0, chunks := [fullChunk] }

/-! ### Witnesses -/

theorem C1_intern_roundtrip_witness :
    Root.init.root < Root.init.chunks.length ∧ demoS.length ≤ 255 ∧
    (∃ st' h, Str.tryFrom Root.init demoS = some (.ok (st', h)) ∧
      Str.get st' h = demoS) :=
  ⟨by decide, by decide, C1_intern_roundtrip Root.init demoS (by decide) (by decide)⟩

theorem C2_canonicalization_witness :
    RootInv Root.init ∧
    Str.tryFrom Root.init demoS = some (.ok (demoSt1, demoH1)) ∧
    ((demoH1 ∈ demoSt1.all ∧ Str.get demoSt1 demoH1 = demoS) ∧
     (∀ h' ∈ demoSt1.all, Str.get demoSt1 h' = demoS → h' = demoH1) ∧
     Str.tryFrom demoSt1 demoS = some (.ok (demoSt1, demoH1))) :=
  ⟨invInit, rfl, C2_canonicalization Root.init demoS demoSt1 demoH1 invInit rfl⟩

set_option maxRecDepth 8192 in
theorem C3_error_iff_witness :
    (List.replicate 255 97).length ≤ 255 ∧
    (∃ st' h, Str.tryFrom Root.init (List.replicate 255 97) = some (.ok (st', h))) ∧
    (List.replicate 256 97).length > 255 ∧
    Str.tryFrom Root.init (List.replicate 256 97) = some (.error .InputTooLong) :=
  ⟨by decide, (C3_error_iff Root.init (List.replicate 255 97)).2.1 (by decide),
   by decide, (C3_error_iff Root.init (List.replicate 256 97)).2.2.1 (by decide)⟩

theorem C4_content_semantics_witness :
    Str.get demoSt2 demoH1 ≠ Str.get demoSt2 demoH2 ∧
    Str.eqb demoSt2 demoH1 demoH2 = false ∧
    Str.hashBy List.length demoSt2 demoH1 = (Str.get demoSt2 demoH1).length :=
  ⟨by decide, (C4_content_semantics demoSt2 demoH1 demoH2).2.2.2.2.2.2 (by decide),
   (C4_content_semantics demoSt2 demoH1 demoH2).2.2.2.2.1 List.length⟩

theorem C5_permanence_witness :
    Str.committed demoSt1 demoH1 ∧
    (Str.get (Str.internList demoSt1 [[97], [98]]) demoH1 = Str.get demoSt1 demoH1 ∧
     Str.committed (Str.internList demoSt1 [[97], [98]]) demoH1) :=
  ⟨by decide, C5_permanence demoSt1 demoH1 [[97], [98]] (by decide)⟩

theorem C6_insert_postcondition_witness :
    ([Chunk.new] : List Chunk).getD 0 Chunk.new = Chunk.new ∧
    ([97] : List Nat).length ≤ 255 ∧
    CHUNK_SIZE - Chunk.new.pos > ([97] : List Nat).length ∧
    (Chunk.insert [Chunk.new] 0 [97] =
        some ([Chunk.new].set 0 (Chunk.writeAt Chunk.new [97]).1, 0,
          ⟨0, Chunk.new.pos⟩) ∧
      (Chunk.writeAt Chunk.new [97]).1.pos
        = Chunk.new.pos + 1 + ([97] : List Nat).length ∧
      (Chunk.writeAt Chunk.new [97]).1.data Chunk.new.pos
        = ([97] : List Nat).length ∧
      readBytes (Chunk.writeAt Chunk.new [97]).1.data (Chunk.new.pos + 1)
        ([97] : List Nat).length = [97] ∧
      (∀ j, j < Chunk.new.pos →
        (Chunk.writeAt Chunk.new [97]).1.data j = Chunk.new.data j) ∧
      (Chunk.writeAt Chunk.new [97]).1.pos ≤ CHUNK_SIZE ∧
      Chunk.new.pos + 1 + ([97] : List Nat).length
        ≤ (Chunk.writeAt Chunk.new [97]).1.pos) :=
  ⟨rfl, by decide, by decide,
   C6_insert_postcondition [Chunk.new] 0 [97] Chunk.new rfl (by decide) (by decide)⟩

theorem C7_rotation_witness :
    ([97] : List Nat).length ≤ 255 ∧
    ¬ CHUNK_SIZE - (fullSt.chunks.getD fullSt.root Chunk.new).pos
        > ([97] : List Nat).length ∧
    fullSt.all.find? (fun t => Str.get fullSt t == [97]) = none ∧
    (Chunk.insert fullSt.chunks fullSt.root [97] =
        some (fullSt.chunks ++ [(Chunk.writeAt Chunk.new [97]).1],
          fullSt.chunks.length, ⟨fullSt.chunks.length, 0⟩) ∧
      (Chunk.writeAt Chunk.new [97]).1.pos = 1 + ([97] : List Nat).length ∧
      (Chunk.writeAt Chunk.new [97]).1.data 0 = ([97] : List Nat).length ∧
      readBytes (Chunk.writeAt Chunk.new [97]).1.data 1
        ([97] : List Nat).length = [97] ∧
      (∀ i, i < fullSt.chunks.length →
        (fullSt.chunks ++ [(Chunk.writeAt Chunk.new [97]).1]).getD i Chunk.new
          = fullSt.chunks.getD i Chunk.new) ∧
      Str.tryFrom fullSt [97] = some (.ok
        ({ all := ⟨fullSt.chunks.length, 0⟩ :: fullSt.all,
           root := fullSt.chunks.length,
           chunks := fullSt.chunks ++ [(Chunk.writeAt Chunk.new [97]).1] },
         ⟨fullSt.chunks.length, 0⟩)) ∧
      (Str.step fullSt [97]).root = fullSt.chunks.length) :=
  ⟨by decide, by decide, rfl, C7_rotation fullSt [97] (by decide) (by decide) rfl⟩

set_option maxRecDepth 8192 in
theorem C8_error_atomicity_witness :
    (List.replicate 256 97).length > 255 ∧
    (Str.tryFrom Root.init (List.replicate 256 97) = some (.error .InputTooLong) ∧
     Str.step Root.init (List.replicate 256 97) = Root.init) :=
  ⟨by decide, C8_error_atomicity Root.init (List.replicate 256 97) (by decide)⟩

theorem C9_deref_safety_witness :
    RootInv Root.init ∧
    Str.tryFrom Root.init demoS = some (.ok (demoSt1, demoH1)) ∧
    (demoH1.chunk < demoSt1.chunks.length ∧
     demoH1.off + 1 + (demoSt1.chunks.getD demoH1.chunk Chunk.new).data demoH1.off
       ≤ (demoSt1.chunks.getD demoH1.chunk Chunk.new).pos ∧
     (∀ i, demoH1.off ≤ i →
       i < demoH1.off + 1
         + (demoSt1.chunks.getD demoH1.chunk Chunk.new).data demoH1.off →
       i < (demoSt1.chunks.getD demoH1.chunk Chunk.new).pos ∧ i < CHUNK_SIZE)) :=
  ⟨invInit, rfl, C9_deref_safety Root.init demoS demoSt1 demoH1 invInit rfl⟩

theorem C10_empty_string_witness :
    Root.init.root < Root.init.chunks.length ∧
    Root.init.all.find? (fun t => Str.get Root.init t == ([] : List Nat)) = none ∧
    (Root.init.chunks.getD Root.init.root Chunk.new).pos < CHUNK_SIZE ∧
    (∃ st' h, Str.tryFrom Root.init [] = some (.ok (st', h)) ∧
      Str.get st' h = [] ∧ st'.root = Root.init.root ∧
      (st'.chunks.getD st'.root Chunk.new).pos
        = (Root.init.chunks.getD Root.init.root Chunk.new).pos + 1 ∧
      (st'.chunks.getD st'.root Chunk.new).data
        (Root.init.chunks.getD Root.init.root Chunk.new).pos = 0) :=
  ⟨by decide, rfl, by decide,
   C10_empty_string Root.init (by decide) rfl (by decide)⟩
